import Mathlib

set_option maxRecDepth 40000

/-!
Verification of the Nine-Holes game core.

The repository contains two close variants of the game:

* `G` — the literate variant in `src/js/game.js` (first document):
  `Board.create`, `Board.move`, `Rules`, `AI`, `Engine.tick`.  Boards are
  pure values; moves are strings `"a1-b2"` over the fifteen spaces
  `a1 … c5` (every space id is exactly two characters, so a move string is
  modelled by the pair of its start and end space).
* `P` — the holding-row variant in `src/unnamed/part_001`: a 3x3 interior
  grid `a1 … c3` together with six holding spaces `p11 … p23`, with
  `PRNG`, `Rules`, `AI.move` and the stateful `Stage`.

JavaScript objects keep their keys in insertion order; the embedding fixes
the corresponding ordered lists of spaces (`G.spaces`, `P.spaces`) exactly
as the sources insert them, and a board is the layout mapping from spaces
to occupants.  The empty-string occupant is modelled by `none` and the two
players by `some _`, which matches every occupancy test in the sources
(`!layout[s]`, `=== ''`, `=== player`).

Randomness: `Math.random()` and `PRNG.random()` produce a number `r` with
`0 ≤ r < 1`, and every random choice in the sources is
`array[Math.floor(r * array.length)]`.  The helper `pickAt r l` embeds that
expression with the draw `r : ℚ` passed explicitly; each AI invocation
performs exactly one draw, so `AI.move` and the turn controllers take the
draw as an extra argument.
-/

/-- Embedding of `array[Math.floor(r * array.length)]`: the element a random
draw `r`, `none` when the index falls outside the array (JS `undefined`). -/
def pickAt {α : Type} (r : ℚ) (l : List α) : Option α :=
  l[(⌊r * (l.length : ℚ)⌋₊)]?

/-- JS `Array.prototype.indexOf`: index of the first occurrence, `-1` when
the element is absent. -/
def jsIndexOf {α : Type} [DecidableEq α] (l : List α) (a : α) : Int :=
  match l with
  | [] => -1
  | x :: xs =>
    if x = a then 0
    else if jsIndexOf xs a < 0 then -1 else jsIndexOf xs a + 1

namespace G

/-- The two players of `src/js/game.js`, the strings `x` and `y`. -/
inductive Player where
  | x
  | y
deriving DecidableEq, Repr, Fintype

/-- An occupant of a space: `none` is the empty string. -/
abbrev Occ := Option Player

/-- The fifteen space ids of the `game.js` board, `files × ranks`. -/
inductive Space where
  | a1 | a2 | a3 | a4 | a5
  | b1 | b2 | b3 | b4 | b5
  | c1 | c2 | c3 | c4 | c5
deriving DecidableEq, Repr, Fintype

open Space

/-- Embedding of `Object.keys(board.layout)` in insertion order: `Board.create` fills the
layout by iterating files `a,b,c` outside and ranks `1 … 5` inside. -/
def spaces : List Space :=
  [a1, a2, a3, a4, a5, b1, b2, b3, b4, b5, c1, c2, c3, c4, c5]

/-- The rank character of a space id, JS `space.charAt(1)`. -/
def rankChar : Space → Char
  | a1 | b1 | c1 => '1'
  | a2 | b2 | c2 => '2'
  | a3 | b3 | c3 => '3'
  | a4 | b4 | c4 => '4'
  | a5 | b5 | c5 => '5'

/-- A board layout.  `Board.create` always returns the same `files` and
`ranks` metadata, so the embedding keeps only the layout mapping. -/
abbrev Board := Space → Occ

/-- A move, the pair of the two 2-character halves of a `"start-end"`
string (`split('-')`, `slice(0, 2)`, `slice(3)` all recover them). -/
abbrev Move := Space × Space

namespace Board

/-- Embedding of `Board.create`: every space empty, then rank 1 set to `x` and rank 5
set to `y`. -/
def create : Board := fun s =>
  if rankChar s = '1' then some Player.x
  else if rankChar s = '5' then some Player.y
  else none

/-- One step of the `moves.forEach` loop in `Board.move`:
`copy.layout[end] = copy.layout[start]; copy.layout[start] = ''`. -/
def applyMove (b : Board) (m : Move) : Board := fun sp =>
  if sp = m.1 then none
  else if sp = m.2 then b m.1
  else b sp

/-- Embedding of `Board.move(board, moves)`: apply the listed moves in order to a copy
of the board. -/
def move (b : Board) (ms : List Move) : Board :=
  ms.foldl applyMove b

end Board

namespace Rules

/-- Embedding of `Rules.pickable`: the spaces occupied by the player. -/
def pickable (b : Board) (p : Player) : List Space :=
  spaces.filter fun s => b s = some p

/-- Embedding of `Rules.starting`: the spaces whose rank character is `'1'` or `'5'`.
The argument is unused beyond its keys, which are fixed. -/
def starting (_ : Board) : List Space :=
  spaces.filter fun s => rankChar s = '1' ∨ rankChar s = '5'

/-- Embedding of `Rules.playable`: the empty spaces, minus the starting spaces. -/
def playable (b : Board) : List Space :=
  (spaces.filter fun s => b s = none).filter fun s => jsIndexOf (starting b) s < 0

/-- Embedding of `Rules.moves`: the cross product of pickable starts and playable
ends, starts in the outer loop. -/
def moves (b : Board) (p : Player) : List Move :=
  (pickable b p).flatMap fun st => (playable b).map fun en => (st, en)

/-- One `players` scan of `Rules.winner`: with three occupants collected
from a line, `new Set(players).size === 1 && players[0]` names the winner
when all three are equal and non-empty. -/
def line (s1 s2 s3 : Space) (b : Board) : Occ :=
  if b s1 = b s2 ∧ b s2 = b s3 then b s1 else none

/-- The lines `Rules.winner` scans, in scan order: ranks
`board.ranks.slice(1, -1) = ['2','3','4']` across the files first, then
each file down those same ranks. -/
def lines : List (Space × Space × Space) :=
  [(a2, b2, c2), (a3, b3, c3), (a4, b4, c4),
   (a2, a3, a4), (b2, b3, b4), (c2, c3, c4)]

/-- Embedding of `Rules.winner`: the occupant of the first completely-filled scanned
line, if any. -/
def winner (b : Board) : Occ :=
  lines.findSome? fun l => line l.1 l.2.1 l.2.2 b

end Rules

namespace AI

/-- Embedding of `AI.winning`: the legal moves after which the player is the winner. -/
def winning (b : Board) (p : Player) : List Move :=
  (Rules.moves b p).filter fun m => Rules.winner (Board.move b [m]) = some p

/-- Embedding of `AI.opponent`. -/
def opponent : Player → Player
  | Player.x => Player.y
  | Player.y => Player.x

/-- Embedding of `AI.blocking`: the legal moves of the player whose destination matches the
destination of some winning move of the opponent. -/
def blocking (b : Board) (p : Player) : List Move :=
  (Rules.moves b p).filter fun m =>
    m.2 ∈ (winning b (opponent p)).map Prod.snd

/-- Embedding of `AI.starting`: the legal moves kept by the filter
`starting.indexOf(move.slice(0, 2)) > 0` — note `> 0`, not `> -1`, so a
move starting at the head entry `a1` of `starting` is never kept. -/
def startingMoves (b : Board) (p : Player) : List Move :=
  (Rules.moves b p).filter fun m => jsIndexOf (Rules.starting b) m.1 > 0

/-- Embedding of `AI.moves`: winning moves, else blocking moves, else starting moves,
else all legal moves. -/
def moves (b : Board) (p : Player) : List Move :=
  let w := winning b p
  if 0 < w.length then w
  else
    let bl := blocking b p
    if 0 < bl.length then bl
    else
      let st := startingMoves b p
      if 0 < st.length then st
      else Rules.moves b p

/-- Embedding of `AI.move`: `moves[Math.floor(Math.random() * moves.length)]`, with the
random draw `r` passed explicitly. -/
def move (r : ℚ) (b : Board) (p : Player) : Option Move :=
  pickAt r (moves b p)

end AI

namespace Engine

/-- Embedding of `Engine.tick(board, player, start, end)`, with the random draw of the AI `r`
passed explicitly.  The result `none` models the `TypeError` the source
would raise if `AI.move` returned `undefined` and `Board.move` then split
it; every `some (b, pk)` is the returned `[board, picked]` pair (the
spread `...picked` can hold two spaces, of which the caller destructures
the first, hence `List.head?`). -/
def tick (r : ℚ) (b : Board) (p : Player) (s e : Space) :
    Option (Board × Option Space) :=
  if (Rules.winner b).isSome then some (b, none)
  else if (s, e) ∈ Rules.moves b p then
    let next := Board.move b [(s, e)]
    if Rules.winner next = some p then some (next, none)
    else
      match AI.move r next (AI.opponent p) with
      | some m => some (Board.move next [m], none)
      | none => none
  else
    some (b, ([e, s].filter fun sp => sp ∈ Rules.pickable b p).head?)

end Engine

end G

namespace P

/-- The two players of `src/unnamed/part_001`, the strings `white` and
`black`. -/
inductive BW where
  | white
  | black
deriving DecidableEq, Repr, Fintype

/-- An occupant of a space: `none` is the empty string. -/
abbrev POcc := Option BW

/-- The fifteen space ids of the `part_001` board: the black holding row
`p21 … p23`, the 3x3 interior grid, the white holding row `p11 … p13`. -/
inductive Sp where
  | p21 | p22 | p23
  | a3 | b3 | c3
  | a2 | b2 | c2
  | a1 | b1 | c1
  | p11 | p12 | p13
deriving DecidableEq, Repr, Fintype

open Sp

/-- Embedding of `Object.keys(board.layout)` in the insertion order of `Board.reset`. -/
def spaces : List Sp :=
  [p21, p22, p23, a3, b3, c3, a2, b2, c2, a1, b1, c1, p11, p12, p13]

/-- JS `position.charAt(0) === 'p'`: the holding spaces. -/
def holding : Sp → Bool
  | p21 | p22 | p23 | p11 | p12 | p13 => true
  | _ => false

/-- A board layout.  `Board.get` returns `{ rows: 3, cols: 3, layout }`;
the `rows`/`cols` metadata is the constant 3, so the embedding keeps only
the layout mapping. -/
abbrev Board := Sp → POcc

namespace Board

/-- Embedding of `Board.reset`: three black pieces in `p21 … p23`, three white pieces
in `p11 … p13`, the interior empty. -/
def reset : Board := fun s =>
  match s with
  | p21 | p22 | p23 => some BW.black
  | p11 | p12 | p13 => some BW.white
  | _ => none

/-- Embedding of `Board.move(start, end)`: `layout[end] = layout[start];
layout[start] = ''`, with no validation. -/
def move (b : Board) (s e : Sp) : Board := fun sp =>
  if sp = s then none
  else if sp = e then b s
  else b sp

end Board

namespace Rules

/-- Embedding of `Rules.pickable(player, board)`: the spaces occupied by the player. -/
def pickable (p : BW) (b : Board) : List Sp :=
  spaces.filter fun s => b s = some p

/-- Embedding of `Rules.playable(player, board)`: the empty spaces outside the holding
rows.  The player argument is unused, as in the source. -/
def playable (_ : BW) (b : Board) : List Sp :=
  spaces.filter fun s => b s = none ∧ holding s = false

/-- Embedding of `Rules.moves(player, board)`: all pickable × playable pairs, but when
any of them starts in a holding row, only those drops. -/
def moves (p : BW) (b : Board) : List (Sp × Sp) :=
  let possible :=
    (pickable p b).flatMap fun st => (playable p b).map fun en => (st, en)
  let drops := possible.filter fun m => holding m.1
  if 0 < drops.length then drops else possible

/-- One `players` scan of `Rules.winner`: with three occupants collected
from a line, `new Set(players).size === 1 && players[0] !== ''` names the
winner when all three are equal and non-empty. -/
def line (s1 s2 s3 : Sp) (b : Board) : POcc :=
  if b s1 = b s2 ∧ b s2 = b s3 then b s1 else none

/-- The lines `Rules.winner` scans, in scan order: the letters
`a, b, c` paired with digits `1 … 3` first, then each digit down the
letters. -/
def lines : List (Sp × Sp × Sp) :=
  [(a1, a2, a3), (b1, b2, b3), (c1, c2, c3),
   (a1, b1, c1), (a2, b2, c2), (a3, b3, c3)]

/-- Embedding of `Rules.winner`: the occupant of the first completely-filled scanned
line, if any. -/
def winner (b : Board) : POcc :=
  lines.findSome? fun l => line l.1 l.2.1 l.2.2 b

/-- Embedding of `Rules.winning(player, board)`: the legal moves after which the player
is the winner (each candidate applied to a throwaway copy). -/
def winning (p : BW) (b : Board) : List (Sp × Sp) :=
  (moves p b).filter fun m => winner (Board.move b m.1 m.2) = some p

end Rules

namespace PRNG

/-- JS `ToUint32`: truncate toward zero, then reduce modulo `2 ^ 32`.
`state >>> 32` shifts by `32 % 32 = 0` bits, so it is exactly
`ToUint32(state)`. -/
def toUint32 (q : ℚ) : ℕ :=
  (((if 0 ≤ q then (⌊q⌋ : ℤ) else -⌊-q⌋) % (2 ^ 32 : ℤ))).toNat

/-- Embedding of `PRNG.random()`: `(state >>> 32) / max` where `max = 2 ** 32`.  The
state update `state += (state * state) | 5` involves floating-point
rounding; `random` is therefore given the updated state `s` (an arbitrary
rational, a superset of the reachable floats) as its argument. -/
def random (s : ℚ) : ℚ :=
  (toUint32 s : ℚ) / 2 ^ 32

/-- Embedding of `PRNG.pick(array)`: `array[Math.floor(random() * array.length)]`,
with the state at the call passed explicitly. -/
def pick {α : Type} (s : ℚ) (l : List α) : Option α :=
  pickAt (random s) l

end PRNG

namespace AI

/-- Embedding of `AI.move(player, board)`, with the single random draw `r` used by
whichever `PRNG.pick` runs passed explicitly.  `player2` is the first
occupant value distinct from `player` in key order (`new Set` keeps
insertion order); when no such player exists the JS value is `undefined`
and `Rules.winning(undefined, board)` returns `[]`. -/
def move (r : ℚ) (p1 : BW) (b : Board) : Option (Sp × Sp) :=
  let p2 : Option BW := ((spaces.filterMap b).filter fun q => q ≠ p1).head?
  let p1moves := Rules.moves p1 b
  let p1wins := Rules.winning p1 b
  if 0 < p1wins.length then pickAt r p1wins
  else
    let p2wins := match p2 with
      | some q => Rules.winning q b
      | none => []
    let p1blocks := p2wins.flatMap fun w => p1moves.filter fun m => m.2 = w.2
    if 0 < p2wins.length ∧ 0 < p1blocks.length then pickAt r p1blocks
    else pickAt r p1moves

end AI

/-- The state owned by the `Stage` and `Board` singletons together: the
board layout and the pending pick. -/
structure St where
  board : Board
  picked : Option Sp
deriving DecidableEq

/-- The state after `Board.reset()` and `Stage.reset()`. -/
def resetSt : St :=
  { board := Board.reset, picked := none }

namespace Stage

/-- Embedding of `Stage.next(message)`, with the random draw of the AI `r` passed
explicitly.  Mirrors the source branch for branch: terminal when a winner
exists; first tap picks a pickable space; with a space picked, an
unplayable message re-picks (or keeps the pick); a playable message moves
the picked piece, then lets black answer unless white just won. -/
def next (r : ℚ) (st : St) (msg : Sp) : St :=
  let b := st.board
  if (Rules.winner b).isSome then st
  else
    let pickable := msg ∈ Rules.pickable BW.white b
    match st.picked with
    | none => if pickable then { st with picked := some msg } else st
    | some p =>
      let playable := msg ∈ Rules.playable BW.white b
      if ¬playable then
        if pickable then { st with picked := some msg } else st
      else
        let b1 := Board.move b p msg
        if Rules.winner b1 = some BW.white then { board := b1, picked := none }
        else
          match AI.move r BW.black b1 with
          | some m => { board := Board.move b1 m.1 m.2, picked := none }
          | none => { board := b1, picked := none }

/-- Fold `Stage.next` over a sequence of inputs, each tap carrying its own
random draw. -/
def run (st : St) (inputs : List (ℚ × Sp)) : St :=
  inputs.foldl (fun s i => next i.1 s i.2) st

end Stage

end P

namespace G

/-- The number of spaces holding occupant `v`, counted over the board keys:
the per-occupant view of the multiset of occupants. -/
def count (b : Board) (v : Occ) : ℕ :=
  spaces.countP fun sp => b sp = v

/-- A legal-looking step as the piece-conservation property words it: the
start is occupied (by the moving player), the end is an empty playable
space, and the two are distinct. -/
def LegalStep (b : Board) (m : Move) : Prop :=
  b m.1 ≠ none ∧ m.2 ∈ Rules.playable b ∧ m.1 ≠ m.2

/-- A sequence of moves each legal on the board produced by its
predecessors. -/
def LegalSeq : Board → List Move → Prop
  | _, [] => True
  | b, m :: ms => LegalStep b m ∧ LegalSeq (Board.applyMove b m) ms

instance decLegalStep (b : Board) (m : Move) : Decidable (LegalStep b m) :=
  inferInstanceAs
    (Decidable (b m.1 ≠ none ∧ m.2 ∈ Rules.playable b ∧ m.1 ≠ m.2))

instance decLegalSeq : (b : Board) → (ms : List Move) → Decidable (LegalSeq b ms)
  | _, [] => isTrue trivial
  | b, m :: ms =>
    have : Decidable (LegalSeq (Board.applyMove b m) ms) := decLegalSeq _ ms
    inferInstanceAs (Decidable (LegalStep b m ∧ LegalSeq (Board.applyMove b m) ms))

/-- Three equal pieces of player `w` along a line: the win condition the
spec describes for a single row or column of the interior grid. -/
def fullLine (b : Board) (w : Player) (l : Space × Space × Space) : Prop :=
  b l.1 = some w ∧ b l.2.1 = some w ∧ b l.2.2 = some w

end G

namespace P

/-- The number of spaces holding occupant `v`, counted over the board keys. -/
def count (b : Board) (v : POcc) : ℕ :=
  spaces.countP fun sp => b sp = v

/-- The invariant of the picked selection: whenever a space is picked, the
piece of the human player (white) occupies it on the current board. -/
def PickedInv (st : St) : Prop :=
  ∀ p, st.picked = some p → st.board p = some BW.white

/-- Three equal pieces of player `w` along a line: the win condition the
spec describes for a single row or column of the interior grid. -/
def fullLine (b : Board) (w : BW) (l : Sp × Sp × Sp) : Prop :=
  b l.1 = some w ∧ b l.2.1 = some w ∧ b l.2.2 = some w

end P

namespace G

open Space

/-- A board on which `x`, to move, can win by playing `c1-c2`. -/
def winReady : Board :=
  Board.move Board.create [(a1, a2), (b1, b2), (a5, a4), (b5, b4)]

/-- The horizontal-win scenario board of the test of the source itself:
`x` owns all of rank 2. -/
def wonBoard : Board :=
  Board.move Board.create [(a1, a2), (b1, b2), (c1, c2)]

/-- The diagonal-shaped scenario board of the test of the source itself. -/
def diagBoard : Board :=
  Board.move Board.create [(a1, a2), (b1, b3), (c1, c4)]

end G

namespace P

open Sp

/-- A board on which white, to move, can win by dropping `p13` onto `a3`. -/
def winReady : Board := fun s =>
  match s with
  | a1 | a2 | p13 => some BW.white
  | b1 | c3 | p23 => some BW.black
  | _ => none

/-- A board on which white has already won along the `a` line. -/
def wonBoard : Board := fun s =>
  match s with
  | a1 | a2 | a3 => some BW.white
  | p21 | p22 | p23 => some BW.black
  | _ => none

/-- The stage state holding the already-won board with nothing picked. -/
def wonSt : St :=
  { board := wonBoard, picked := none }

/-- A mid-game board: white has entered one piece (now on `a1`) while
`p12` and `p13` still hold white pieces; black has entered one piece (on
`b3`). -/
def slideBoard : Board := fun s =>
  match s with
  | a1 | p12 | p13 => some BW.white
  | b3 | p22 | p23 => some BW.black
  | _ => none

/-- The stage state in which the human has picked the on-board piece `a1`
while still owning holding pieces. -/
def slideSt : St :=
  { board := slideBoard, picked := some a1 }

end P

/-! ### Helper lemmas -/

theorem pickAt_nil {α : Type} (r : ℚ) : pickAt r ([] : List α) = none := by
  simp [pickAt]

theorem pickAt_mem {α : Type} (r : ℚ) (l : List α) (h0 : 0 ≤ r) (h1 : r < 1)
    (hne : l ≠ []) : ∃ a ∈ l, pickAt r l = some a := by
  have hlen : 0 < l.length := List.length_pos.2 hne
  have hcast : (0 : ℚ) < (l.length : ℚ) := by exact_mod_cast hlen
  have hlt : r * (l.length : ℚ) < (l.length : ℚ) := by
    calc r * (l.length : ℚ) < 1 * (l.length : ℚ) :=
          mul_lt_mul_of_pos_right h1 hcast
      _ = (l.length : ℚ) := one_mul _
  have hfl : ⌊r * (l.length : ℚ)⌋₊ < l.length := by
    rw [Nat.floor_lt (by positivity)]
    exact hlt
  refine ⟨l[⌊r * (l.length : ℚ)⌋₊], List.getElem_mem hfl, ?_⟩
  simp [pickAt, List.getElem?_eq_getElem hfl]

theorem findSome?_eq_some_mem {α β : Type} (f : α → Option β) (l : List α)
    (b : β) (h : l.findSome? f = some b) : ∃ a ∈ l, f a = some b := by
  induction l with
  | nil => simp [List.findSome?] at h
  | cons x xs ih =>
    cases hfx : f x with
    | some y =>
      have hy : some y = some b := by simpa [List.findSome?, hfx] using h
      exact ⟨x, by simp, by rw [hfx, hy]⟩
    | none =>
      have h2 : xs.findSome? f = some b := by
        simpa [List.findSome?, hfx] using h
      obtain ⟨a, ha, hfa⟩ := ih h2
      exact ⟨a, by simp [ha], hfa⟩

theorem findSome?_isSome_of_mem {α β : Type} (f : α → Option β) (l : List α)
    (a : α) (ha : a ∈ l) (hfa : (f a).isSome) : (l.findSome? f).isSome := by
  induction l with
  | nil => simp at ha
  | cons x xs ih =>
    rcases List.mem_cons.1 ha with rfl | hmem
    · cases hfx : f a with
      | some y => simp [List.findSome?, hfx]
      | none => rw [hfx] at hfa; simp at hfa
    · cases hfx : f x with
      | some y => simp [List.findSome?, hfx]
      | none => simpa [List.findSome?, hfx] using ih hmem

theorem mem_of_head?_eq_some {α : Type} {l : List α} {a : α}
    (h : l.head? = some a) : a ∈ l := by
  cases l with
  | nil => simp at h
  | cons x xs =>
    have : x = a := by simpa using h
    simp [this]

theorem jsIndexOf_neg_iff {α : Type} [DecidableEq α] (l : List α) (a : α) :
    jsIndexOf l a < 0 ↔ a ∉ l := by
  induction l with
  | nil => simp [jsIndexOf]
  | cons x xs ih =>
    by_cases hx : x = a
    · subst hx; simp [jsIndexOf]
    · by_cases hneg : jsIndexOf xs a < 0
      · have hout : a ∉ xs := ih.1 hneg
        simp [jsIndexOf, hx, hneg, hout, Ne.symm hx]
      · have hmem : a ∈ xs := by
          by_contra hc
          exact hneg (ih.2 hc)
        simp only [jsIndexOf, if_neg hx, if_neg hneg]
        constructor
        · intro h
          omega
        · intro h
          exact absurd (List.mem_cons_of_mem x hmem) h

theorem countP_comp_swapPerm {α : Type} [DecidableEq α] (l : List α)
    (hl : l.Nodup) (hc : ∀ x : α, x ∈ l) (σ : Equiv.Perm α) (p : α → Bool) :
    (l.countP fun a => p (σ a)) = l.countP p := by
  have hmap : (l.map σ).Perm l := by
    apply List.perm_of_nodup_nodup_toFinset_eq (hl.map σ.injective) hl
    ext x
    simp only [List.mem_toFinset, List.mem_map]
    exact ⟨fun _ => hc x, fun _ => ⟨σ.symm x, hc _, by simp⟩⟩
  calc (l.countP fun a => p (σ a)) = (l.map σ).countP p := by
        rw [List.countP_map]
        rfl
    _ = l.countP p := hmap.countP_eq p

theorem G.line_eq_some_iff (b : G.Board) (w : G.Player) (s1 s2 s3 : G.Space) :
    G.Rules.line s1 s2 s3 b = some w ↔
      b s1 = some w ∧ b s2 = some w ∧ b s3 = some w := by
  unfold G.Rules.line
  split
  next h =>
    constructor
    · intro h1
      refine ⟨h1, ?_, ?_⟩
      · rw [← h.1]; exact h1
      · rw [← h.2, ← h.1]; exact h1
    · exact fun h1 => h1.1
  next h =>
    constructor
    · intro h1; simp at h1
    · rintro ⟨ha, hb, hc⟩
      exact absurd ⟨ha.trans hb.symm, hb.trans hc.symm⟩ h

theorem P.line_eq_some_iff_bw (b : P.Board) (w : P.BW) (s1 s2 s3 : P.Sp) :
    P.Rules.line s1 s2 s3 b = some w ↔
      b s1 = some w ∧ b s2 = some w ∧ b s3 = some w := by
  unfold P.Rules.line
  split
  next h =>
    constructor
    · intro h1
      refine ⟨h1, ?_, ?_⟩
      · rw [← h.1]; exact h1
      · rw [← h.2, ← h.1]; exact h1
    · exact fun h1 => h1.1
  next h =>
    constructor
    · intro h1; simp at h1
    · rintro ⟨ha, hb, hc⟩
      exact absurd ⟨ha.trans hb.symm, hb.trans hc.symm⟩ h

/-- C5: `Rules.winner` (both variants) returns a player exactly when some
full row or column of the interior grid holds three equal non-empty
occupants, and any returned player owns such a line; the full starting
rows of a fresh `game.js` board and the full holding rows of a fresh
`part_001` board never register as a win, and neither does the
diagonal-shaped scenario board. -/
theorem winner_iff_full_interior_line :
    (∀ b : G.Board,
        ((G.Rules.winner b).isSome ↔
          ∃ w, ∃ l ∈ G.Rules.lines, G.fullLine b w l)
        ∧ ∀ w, G.Rules.winner b = some w →
            ∃ l ∈ G.Rules.lines, G.fullLine b w l)
    ∧ (∀ b : P.Board,
        ((P.Rules.winner b).isSome ↔
          ∃ w, ∃ l ∈ P.Rules.lines, P.fullLine b w l)
        ∧ ∀ w, P.Rules.winner b = some w →
            ∃ l ∈ P.Rules.lines, P.fullLine b w l)
    ∧ G.Rules.winner G.Board.create = none
    ∧ G.Rules.winner G.diagBoard = none
    ∧ P.Rules.winner P.Board.reset = none := by
  refine ⟨?_, ?_, by decide, by decide, by decide⟩
  · intro b
    constructor
    · constructor
      · intro h
        obtain ⟨w, hw⟩ := Option.isSome_iff_exists.1 h
        obtain ⟨l, hl, hfl⟩ := findSome?_eq_some_mem _ _ _ hw
        exact ⟨w, l, hl, (G.line_eq_some_iff b w _ _ _).1 hfl⟩
      · rintro ⟨w, l, hl, hfl⟩
        exact findSome?_isSome_of_mem _ _ l hl
          (by rw [(G.line_eq_some_iff b w _ _ _).2 hfl]; rfl)
    · intro w hw
      obtain ⟨l, hl, hfl⟩ := findSome?_eq_some_mem _ _ _ hw
      exact ⟨l, hl, (G.line_eq_some_iff b w _ _ _).1 hfl⟩
  · intro b
    constructor
    · constructor
      · intro h
        obtain ⟨w, hw⟩ := Option.isSome_iff_exists.1 h
        obtain ⟨l, hl, hfl⟩ := findSome?_eq_some_mem _ _ _ hw
        exact ⟨w, l, hl, (P.line_eq_some_iff_bw b w _ _ _).1 hfl⟩
      · rintro ⟨w, l, hl, hfl⟩
        exact findSome?_isSome_of_mem _ _ l hl
          (by rw [(P.line_eq_some_iff_bw b w _ _ _).2 hfl]; rfl)
    · intro w hw
      obtain ⟨l, hl, hfl⟩ := findSome?_eq_some_mem _ _ _ hw
      exact ⟨l, hl, (P.line_eq_some_iff_bw b w _ _ _).1 hfl⟩

/-- Witness for C5 at the horizontal-win scenario board of each variant. -/
theorem winner_iff_full_interior_line_witness :
    G.Rules.winner G.wonBoard = some G.Player.x
    ∧ (∃ l ∈ G.Rules.lines, G.fullLine G.wonBoard G.Player.x l)
    ∧ P.Rules.winner P.wonBoard = some P.BW.white
    ∧ (∃ l ∈ P.Rules.lines, P.fullLine P.wonBoard P.BW.white l) :=
  ⟨by decide,
   (winner_iff_full_interior_line.1 G.wonBoard).2 G.Player.x (by decide),
   by decide,
   (winner_iff_full_interior_line.2.1 P.wonBoard).2 P.BW.white (by decide)⟩

theorem G.playable_empty {b : G.Board} {s : G.Space}
    (h : s ∈ G.Rules.playable b) : b s = none := by
  have h1 := (List.mem_filter.1 h).1
  have h2 := (List.mem_filter.1 h1).2
  simpa using h2

theorem G.applyMove_eq_comp_swap (b : G.Board) (m : G.Move)
    (_hne : m.1 ≠ m.2) (hend : b m.2 = none) (sp : G.Space) :
    G.Board.applyMove b m sp = b (Equiv.swap m.1 m.2 sp) := by
  unfold G.Board.applyMove
  by_cases h1 : sp = m.1
  · subst h1
    simp [Equiv.swap_apply_left, hend]
  · by_cases h2 : sp = m.2
    · subst h2
      simp [h1, Equiv.swap_apply_right]
    · simp [h1, h2, Equiv.swap_apply_of_ne_of_ne h1 h2]

theorem G.count_applyMove (b : G.Board) (m : G.Move) (hne : m.1 ≠ m.2)
    (hend : b m.2 = none) (v : G.Occ) :
    G.count (G.Board.applyMove b m) v = G.count b v := by
  unfold G.count
  have hfe : (fun sp => decide (G.Board.applyMove b m sp = v)) =
      fun sp => decide (b (Equiv.swap m.1 m.2 sp) = v) := by
    funext sp
    rw [G.applyMove_eq_comp_swap b m hne hend sp]
  rw [hfe]
  exact countP_comp_swapPerm G.spaces (by decide) (by decide)
    (Equiv.swap m.1 m.2) fun sp => decide (b sp = v)

theorem P.move_eq_comp_swap (b : P.Board) (s e : P.Sp)
    (_hne : s ≠ e) (hend : b e = none) (sp : P.Sp) :
    P.Board.move b s e sp = b (Equiv.swap s e sp) := by
  unfold P.Board.move
  by_cases h1 : sp = s
  · subst h1
    simp [Equiv.swap_apply_left, hend]
  · by_cases h2 : sp = e
    · subst h2
      simp [h1, Equiv.swap_apply_right]
    · simp [h1, h2, Equiv.swap_apply_of_ne_of_ne h1 h2]

theorem P.count_move (b : P.Board) (s e : P.Sp) (hne : s ≠ e)
    (hend : b e = none) (v : P.POcc) :
    P.count (P.Board.move b s e) v = P.count b v := by
  unfold P.count
  have hfe : (fun sp => decide (P.Board.move b s e sp = v)) =
      fun sp => decide (b (Equiv.swap s e sp) = v) := by
    funext sp
    rw [P.move_eq_comp_swap b s e hne hend sp]
  rw [hfe]
  exact countP_comp_swapPerm P.spaces (by decide) (by decide)
    (Equiv.swap s e) fun sp => decide (b sp = v)

/-- C6: applying `Board.move` along any sequence of legal moves (start
occupied, end an empty playable space, start distinct from end) preserves
the count of every occupant over all spaces; a fresh `game.js` board
carries exactly 3 pieces per player, and the unconditional single-move
`Board.move` of `part_001` likewise conserves counts whenever its start is
occupied, its end empty and the two distinct. -/
theorem legal_moves_conserve_pieces :
    (∀ (b : G.Board) (ms : List G.Move), G.LegalSeq b ms →
        ∀ v : G.Occ, G.count (G.Board.move b ms) v = G.count b v)
    ∧ G.count G.Board.create (some G.Player.x) = 3
    ∧ G.count G.Board.create (some G.Player.y) = 3
    ∧ (∀ (b : P.Board) (s e : P.Sp), b s ≠ none → b e = none → s ≠ e →
        ∀ v : P.POcc, P.count (P.Board.move b s e) v = P.count b v) := by
  refine ⟨?_, by decide, by decide, ?_⟩
  · intro b ms h v
    induction ms generalizing b with
    | nil => rfl
    | cons m ms ih =>
      obtain ⟨⟨hocc, hpl, hne⟩, hrest⟩ := h
      have h1 : G.count (G.Board.move (G.Board.applyMove b m) ms) v =
          G.count (G.Board.applyMove b m) v := ih _ hrest
      have h2 := G.count_applyMove b m hne (G.playable_empty hpl) v
      calc G.count (G.Board.move b (m :: ms)) v =
            G.count (G.Board.move (G.Board.applyMove b m) ms) v := rfl
        _ = G.count b v := by rw [h1, h2]
  · intro b s e _ hend hne v
    exact P.count_move b s e hne hend v

/-- Witness for C6: the opening entry `a1-a2` on a fresh `game.js` board
and a white slide `a1-b2` on the `part_001` mid-game board both conserve
the white/x piece count. -/
theorem legal_moves_conserve_pieces_witness :
    G.LegalSeq G.Board.create [(G.Space.a1, G.Space.a2)]
    ∧ G.count (G.Board.move G.Board.create [(G.Space.a1, G.Space.a2)])
        (some G.Player.x) = G.count G.Board.create (some G.Player.x)
    ∧ P.slideBoard P.Sp.a1 ≠ none
    ∧ P.slideBoard P.Sp.b2 = none
    ∧ P.count (P.Board.move P.slideBoard P.Sp.a1 P.Sp.b2) (some P.BW.white) =
        P.count P.slideBoard (some P.BW.white) :=
  ⟨by decide,
   legal_moves_conserve_pieces.1 _ _ (by decide) _,
   by decide, by decide,
   legal_moves_conserve_pieces.2.2.2 _ P.Sp.a1 P.Sp.b2 (by decide) (by decide)
     (by decide) _⟩

theorem G.AI_moves_of_winning_ne {b : G.Board} {p : G.Player}
    (h : G.AI.winning b p ≠ []) : G.AI.moves b p = G.AI.winning b p := by
  simp only [G.AI.moves]
  rw [if_pos (List.length_pos.2 h)]

/-- C1: whenever the set of winning moves is non-empty, `AI.move` returns
one of those moves, for every value `r` the random source may yield
(`game.js` via `AI.moves` putting winning moves first, `part_001` via the
`p1wins` branch of `AI.move`). -/
theorem ai_move_takes_winning :
    (∀ (r : ℚ) (b : G.Board) (p : G.Player), 0 ≤ r → r < 1 →
        G.AI.winning b p ≠ [] →
        ∃ m ∈ G.AI.winning b p, G.AI.move r b p = some m)
    ∧ (∀ (r : ℚ) (p : P.BW) (b : P.Board), 0 ≤ r → r < 1 →
        P.Rules.winning p b ≠ [] →
        ∃ m ∈ P.Rules.winning p b, P.AI.move r p b = some m) := by
  constructor
  · intro r b p h0 h1 hne
    have hmv : G.AI.move r b p = pickAt r (G.AI.winning b p) := by
      unfold G.AI.move
      rw [G.AI_moves_of_winning_ne hne]
    obtain ⟨m, hm, hp⟩ := pickAt_mem r _ h0 h1 hne
    exact ⟨m, hm, by rw [hmv, hp]⟩
  · intro r p b h0 h1 hne
    have hmv : P.AI.move r p b = pickAt r (P.Rules.winning p b) := by
      simp only [P.AI.move]
      rw [if_pos (List.length_pos.2 hne)]
    obtain ⟨m, hm, hp⟩ := pickAt_mem r _ h0 h1 hne
    exact ⟨m, hm, by rw [hmv, hp]⟩

/-- Witness for C1: on `G.winReady` the `x` AI takes its win `c1-c2`; on
`P.winReady` the white AI takes its winning drop, at draw `r = 0`. -/
theorem ai_move_takes_winning_witness :
    G.AI.winning G.winReady G.Player.x ≠ []
    ∧ (∃ m ∈ G.AI.winning G.winReady G.Player.x,
        G.AI.move 0 G.winReady G.Player.x = some m)
    ∧ P.Rules.winning P.BW.white P.winReady ≠ []
    ∧ (∃ m ∈ P.Rules.winning P.BW.white P.winReady,
        P.AI.move 0 P.BW.white P.winReady = some m) :=
  ⟨by decide,
   ai_move_takes_winning.1 0 G.winReady G.Player.x (le_refl 0) (by norm_num)
     (by decide),
   by decide,
   ai_move_takes_winning.2 0 P.BW.white P.winReady (le_refl 0) (by norm_num)
     (by decide)⟩

theorem P.next_of_winner {st : P.St} (h : (P.Rules.winner st.board).isSome)
    (r : ℚ) (msg : P.Sp) : P.Stage.next r st msg = st := by
  simp only [P.Stage.next]
  rw [if_pos h]

/-- C2: once `Rules.winner` is non-empty, the turn controllers ignore all
input: `Engine.tick` returns the board unchanged with nothing picked, and
any sequence of `Stage.next` calls leaves the `part_001` board unchanged. -/
theorem winner_halts_play :
    (∀ (r : ℚ) (b : G.Board) (p : G.Player) (s e : G.Space),
        (G.Rules.winner b).isSome →
        G.Engine.tick r b p s e = some (b, none))
    ∧ (∀ (st : P.St) (inputs : List (ℚ × P.Sp)),
        (P.Rules.winner st.board).isSome →
        (P.Stage.run st inputs).board = st.board) := by
  constructor
  · intro r b p s e h
    unfold G.Engine.tick
    rw [if_pos h]
  · intro st inputs h
    have hrun : P.Stage.run st inputs = st := by
      induction inputs with
      | nil => rfl
      | cons i is ih =>
        calc P.Stage.run st (i :: is) =
              P.Stage.run (P.Stage.next i.1 st i.2) is := rfl
          _ = P.Stage.run st is := by rw [P.next_of_winner h]
          _ = st := ih
    rw [hrun]

/-- Witness for C2 on the two already-won scenario boards. -/
theorem winner_halts_play_witness :
    (G.Rules.winner G.wonBoard).isSome
    ∧ G.Engine.tick 0 G.wonBoard G.Player.x G.Space.a2 G.Space.a3 =
        some (G.wonBoard, none)
    ∧ (P.Rules.winner P.wonSt.board).isSome
    ∧ (P.Stage.run P.wonSt [(0, P.Sp.b1), (0, P.Sp.b2)]).board =
        P.wonSt.board :=
  ⟨by decide,
   winner_halts_play.1 0 G.wonBoard G.Player.x _ _ (by decide),
   by decide,
   winner_halts_play.2 P.wonSt _ (by decide)⟩

theorem P.mem_spaces (s : P.Sp) : s ∈ P.spaces := by
  cases s <;> decide

theorem flatMap_const_nil {α β : Type} (l : List α) :
    (l.flatMap fun _ => ([] : List β)) = [] := by
  induction l with
  | nil => rfl
  | cons x xs ih => simp [ih]

/-- C4: on any `part_001` board, a player owning at least one piece on a
holding (`p`-prefixed) space gets only holding-origin moves from
`Rules.moves`. -/
theorem mandatory_entry :
    ∀ (b : P.Board) (p : P.BW), (∃ s, P.holding s = true ∧ b s = some p) →
      ∀ m ∈ P.Rules.moves p b, P.holding m.1 = true := by
  intro b p hex m hm
  obtain ⟨s, hs, hbs⟩ := hex
  by_cases hpl : P.Rules.playable p b = []
  · rw [P.Rules.moves, hpl] at hm
    simp only [List.map_nil, flatMap_const_nil] at hm
    simp at hm
  · obtain ⟨e, he⟩ := List.exists_mem_of_ne_nil _ hpl
    have hspick : s ∈ P.Rules.pickable p b :=
      List.mem_filter.2 ⟨P.mem_spaces s, by simp [hbs]⟩
    have hmemposs : (s, e) ∈ ((P.Rules.pickable p b).flatMap fun st =>
        (P.Rules.playable p b).map fun en => (st, en)) :=
      List.mem_flatMap.2 ⟨s, hspick, List.mem_map.2 ⟨e, he, rfl⟩⟩
    have hdropmem : (s, e) ∈ (((P.Rules.pickable p b).flatMap fun st =>
        (P.Rules.playable p b).map fun en => (st, en)).filter
          fun m => P.holding m.1) :=
      List.mem_filter.2 ⟨hmemposs, by simpa using hs⟩
    have hdrops : 0 < ((((P.Rules.pickable p b).flatMap fun st =>
        (P.Rules.playable p b).map fun en => (st, en)).filter
          fun m => P.holding m.1)).length :=
      List.length_pos.2 (List.ne_nil_of_mem hdropmem)
    simp only [P.Rules.moves] at hm
    rw [if_pos hdrops] at hm
    exact (List.mem_filter.1 hm).2

/-- Witness for C4 on a fresh `part_001` board for white. -/
theorem mandatory_entry_witness :
    (∃ s, P.holding s = true ∧ P.Board.reset s = some P.BW.white)
    ∧ ∀ m ∈ P.Rules.moves P.BW.white P.Board.reset, P.holding m.1 = true :=
  ⟨⟨P.Sp.p11, by decide, by decide⟩,
   mandatory_entry P.Board.reset P.BW.white ⟨P.Sp.p11, by decide, by decide⟩⟩

theorem pickAt_zero {α : Type} (l : List α) : pickAt 0 l = l[0]? := by
  unfold pickAt
  rw [zero_mul, Nat.floor_zero]

theorem P.slide_next_eval : P.Stage.next 0 P.slideSt P.Sp.a2 =
    { board := P.Board.move (P.Board.move P.slideBoard P.Sp.a1 P.Sp.a2)
        P.Sp.p22 P.Sp.a3,
      picked := none } := by
  have hAI : P.AI.move 0 P.BW.black (P.slideBoard.move P.Sp.a1 P.Sp.a2) =
      some (P.Sp.p22, P.Sp.a3) := by
    simp only [P.AI.move]
    rw [if_neg (by decide :
      ¬(0 < (P.Rules.winning P.BW.black
          (P.slideBoard.move P.Sp.a1 P.Sp.a2)).length))]
    rw [show (List.filter (fun q => decide (q ≠ P.BW.black))
        (List.filterMap (P.slideBoard.move P.Sp.a1 P.Sp.a2)
          P.spaces)).head? = some P.BW.white from by decide]
    rw [if_neg (by decide :
      ¬(0 < (P.Rules.winning P.BW.white
            (P.slideBoard.move P.Sp.a1 P.Sp.a2)).length ∧
        0 < ((P.Rules.winning P.BW.white
              (P.slideBoard.move P.Sp.a1 P.Sp.a2)).flatMap fun w =>
            List.filter (fun m => decide (m.2 = w.2))
              (P.Rules.moves P.BW.black
                (P.slideBoard.move P.Sp.a1 P.Sp.a2))).length))]
    rw [pickAt_zero]
    decide
  simp only [P.Stage.next, P.slideSt]
  rw [if_neg (by decide :
    ¬(Option.isSome (P.Rules.winner P.slideBoard) = true))]
  rw [if_neg (by decide :
    ¬(P.Sp.a2 ∉ P.Rules.playable P.BW.white P.slideBoard))]
  rw [if_neg (by decide :
    ¬(P.Rules.winner (P.slideBoard.move P.Sp.a1 P.Sp.a2) = some P.BW.white))]
  rw [hAI]

/-- C3 counterexample: in the state `slideSt` (white entered one piece, now
picked on `a1`, with `p12`, `p13` still holding white pieces), the input
`a2` makes `Stage.next` perform `Board.move(a1, a2)` — the white piece
leaves `a1` and lands on `a2` — although `Rules.moves` contains no move
from the picked space `a1` at all (the mandatory-entry rule allows only
drops there), so `a2` is not among the destinations of moves from
`picked`. -/
theorem stage_applies_illegal_slide :
    P.slideSt.picked = some P.Sp.a1
    ∧ P.slideSt.board P.Sp.a1 = some P.BW.white
    ∧ P.slideSt.board P.Sp.a2 = none
    ∧ ((P.Rules.moves P.BW.white P.slideSt.board).filter
        fun m => m.1 = P.Sp.a1) = []
    ∧ (P.Stage.next 0 P.slideSt P.Sp.a2).board P.Sp.a2 = some P.BW.white
    ∧ (P.Stage.next 0 P.slideSt P.Sp.a2).board P.Sp.a1 = none := by
  refine ⟨rfl, rfl, rfl, by decide, ?_, ?_⟩
  · rw [P.slide_next_eval]; decide
  · rw [P.slide_next_eval]; decide

/-- C3 amended: the `part_001` Stage performs the human move exactly under
its own guard — `spaceId ∈ Rules.playable(board)` — without intersecting
with the destinations of `Rules.moves` from the picked space (so the board
can only change for playable inputs, but an on-board slide while holding
pieces remain is applied); the `game.js` Engine does require the full move
to be a member of `Rules.moves` and leaves the board unchanged
otherwise. -/
theorem human_move_requires_playable :
    (∀ (r : ℚ) (st : P.St) (msg : P.Sp),
        msg ∉ P.Rules.playable P.BW.white st.board →
        (P.Stage.next r st msg).board = st.board)
    ∧ (∀ (r : ℚ) (b : G.Board) (p : G.Player) (s e : G.Space),
        (s, e) ∉ G.Rules.moves b p →
        ∃ pk, G.Engine.tick r b p s e = some (b, pk)) := by
  constructor
  · intro r st msg h
    obtain ⟨b, pk⟩ := st
    simp only [] at h ⊢
    by_cases hw : (P.Rules.winner b).isSome = true
    · cases pk <;> simp only [P.Stage.next] <;> rw [if_pos hw]
    · cases pk with
      | none =>
        simp only [P.Stage.next]
        rw [if_neg hw]
        by_cases hpick : msg ∈ P.Rules.pickable P.BW.white b
        · rw [if_pos hpick]
        · rw [if_neg hpick]
      | some p =>
        simp only [P.Stage.next]
        rw [if_neg hw, if_pos h]
        by_cases hpick : msg ∈ P.Rules.pickable P.BW.white b
        · rw [if_pos hpick]
        · rw [if_neg hpick]
  · intro r b p s e h
    unfold G.Engine.tick
    by_cases hw : (G.Rules.winner b).isSome = true
    · rw [if_pos hw]
      exact ⟨none, rfl⟩
    · rw [if_neg hw, if_neg h]
      exact ⟨_, rfl⟩

/-- Witness for the amended C3: an unplayable tap (a holding space) leaves
the Stage board unchanged, and an illegal pair leaves the Engine board
unchanged. -/
theorem human_move_requires_playable_witness :
    P.Sp.p11 ∉ P.Rules.playable P.BW.white P.slideSt.board
    ∧ (P.Stage.next 0 P.slideSt P.Sp.p11).board = P.slideSt.board
    ∧ (G.Space.a1, G.Space.a1) ∉ G.Rules.moves G.Board.create G.Player.x
    ∧ (∃ pk, G.Engine.tick 0 G.Board.create G.Player.x G.Space.a1
        G.Space.a1 = some (G.Board.create, pk)) :=
  ⟨by decide,
   human_move_requires_playable.1 0 P.slideSt P.Sp.p11 (by decide),
   by decide,
   human_move_requires_playable.2 0 G.Board.create G.Player.x _ _
     (by decide)⟩

/-- C7: evaluation at the failing input `Board.create`, player `x`.  The
AI has no winning and no blocking move, the legal move `a1-a2` originates
from the starting space `a1`, yet `AI.moves` omits it: the filter
`starting.indexOf(move.slice(0, 2)) > 0` (instead of `> -1`) drops every
move out of the head starting space `a1`, so only 18 of the 27 starting-origin
moves survive, contradicting the comment in the source itself that it finds "moves
that originate from a starting space". -/
theorem ai_entry_filter_skips_a1 :
    G.AI.winning G.Board.create G.Player.x = []
    ∧ G.AI.blocking G.Board.create G.Player.x = []
    ∧ (G.Space.a1, G.Space.a2) ∈ G.Rules.moves G.Board.create G.Player.x
    ∧ G.Space.a1 ∈ G.Rules.starting G.Board.create
    ∧ (G.Space.a1, G.Space.a2) ∉ G.AI.moves G.Board.create G.Player.x
    ∧ (G.AI.moves G.Board.create G.Player.x).length = 18
    ∧ ((G.Rules.moves G.Board.create G.Player.x).filter
        fun m => m.1 ∈ G.Rules.starting G.Board.create).length = 27 := by
  refine ⟨by decide, by decide, by decide, by decide, by decide, by decide,
    by decide⟩

/-- C8 counterexample: on a freshly created board `Rules.moves(board, x)`
has 27 moves (3 pickable × 9 empty non-starting spaces), not 21. -/
theorem fresh_moves_not_21 :
    (G.Rules.moves G.Board.create G.Player.x).length = 27
    ∧ (G.Rules.moves G.Board.create G.Player.x).length ≠ 21 := by
  exact ⟨by decide, by decide⟩

/-- C8 amended: the 21-move count (3 pickable × 7 empty non-starting
spaces) holds on the board of the test of the source itself, after the opening
`a1-c4`, `b5-a4`; the freshly created board has 27. -/
theorem moves_21_after_opening :
    (G.Rules.moves (G.Board.move G.Board.create
        [(G.Space.a1, G.Space.c4), (G.Space.b5, G.Space.a4)])
      G.Player.x).length = 21
    ∧ (G.Rules.pickable (G.Board.move G.Board.create
        [(G.Space.a1, G.Space.c4), (G.Space.b5, G.Space.a4)])
      G.Player.x).length = 3
    ∧ (G.Rules.playable (G.Board.move G.Board.create
        [(G.Space.a1, G.Space.c4), (G.Space.b5, G.Space.a4)])).length = 7
    ∧ (G.Rules.moves G.Board.create G.Player.x).length = 27 := by
  refine ⟨by decide, by decide, by decide, by decide⟩

/-- C9: `PRNG.random` always yields a value in `[0, 1)` — for every state
the `>>> 32` coercion reduces into `[0, 2^32)` before the division — and
consequently `PRNG.pick` returns a member of every non-empty array and
`none` (JS `undefined`) exactly on the empty array; it never throws. -/
theorem prng_random_in_unit_and_pick_safe :
    (∀ s : ℚ, 0 ≤ P.PRNG.random s ∧ P.PRNG.random s < 1)
    ∧ (∀ (α : Type) (s : ℚ) (l : List α), l ≠ [] →
        ∃ a ∈ l, P.PRNG.pick s l = some a)
    ∧ (∀ (α : Type) (s : ℚ), P.PRNG.pick s ([] : List α) = none) := by
  have hrange : ∀ s : ℚ, 0 ≤ P.PRNG.random s ∧ P.PRNG.random s < 1 := by
    intro s
    unfold P.PRNG.random
    constructor
    · positivity
    · rw [div_lt_one (by positivity)]
      have h1 : P.PRNG.toUint32 s < 2 ^ 32 := by
        unfold P.PRNG.toUint32
        have h3 := Int.emod_lt_of_pos
          (if 0 ≤ s then (⌊s⌋ : ℤ) else -⌊-s⌋) (by norm_num : (0:ℤ) < 2 ^ 32)
        have h4 := Int.emod_nonneg
          (if 0 ≤ s then (⌊s⌋ : ℤ) else -⌊-s⌋) (by norm_num : (2:ℤ) ^ 32 ≠ 0)
        omega
      exact_mod_cast h1
  refine ⟨hrange, ?_, ?_⟩
  · intro α s l hne
    exact pickAt_mem _ _ (hrange s).1 (hrange s).2 hne
  · intro α s
    exact pickAt_nil _

/-- Witness for C9 at a concrete state, a singleton array and the empty
array. -/
theorem prng_random_in_unit_and_pick_safe_witness :
    (0 ≤ P.PRNG.random 37 ∧ P.PRNG.random 37 < 1)
    ∧ (∃ a ∈ [P.Sp.a1], P.PRNG.pick 0 [P.Sp.a1] = some a)
    ∧ P.PRNG.pick 0 ([] : List P.Sp) = none :=
  ⟨prng_random_in_unit_and_pick_safe.1 37,
   prng_random_in_unit_and_pick_safe.2.1 P.Sp 0 [P.Sp.a1] (by decide),
   prng_random_in_unit_and_pick_safe.2.2 P.Sp 0⟩

theorem G.mem_pickable_occ {b : G.Board} {p : G.Player} {s : G.Space}
    (h : s ∈ G.Rules.pickable b p) : b s = some p := by
  have h2 := (List.mem_filter.1 h).2
  simpa using h2

theorem P.mem_pickable_occ_bw {p : P.BW} {b : P.Board} {s : P.Sp}
    (h : s ∈ P.Rules.pickable p b) : b s = some p := by
  have h2 := (List.mem_filter.1 h).2
  simpa using h2

/-- C10: in the two guarded turn controllers, a picked selection always
names a space occupied by the piece of the human player on the current board:
the invariant holds after reset and is preserved by `Stage.next`
(`part_001`), and every `Engine.tick` result that carries a picked space
carries one that is `x`-occupied on the returned board (`game.js`). -/
theorem picked_is_own_piece :
    P.PickedInv P.resetSt
    ∧ (∀ (r : ℚ) (st : P.St) (msg : P.Sp),
        P.PickedInv st → P.PickedInv (P.Stage.next r st msg))
    ∧ (∀ (r : ℚ) (b : G.Board) (s e : G.Space)
        (out : G.Board × Option G.Space),
        G.Engine.tick r b G.Player.x s e = some out →
        ∀ q, out.2 = some q → out.1 q = some G.Player.x) := by
  refine ⟨?_, ?_, ?_⟩
  · intro p hp
    simp [P.resetSt] at hp
  · intro r st msg hinv
    obtain ⟨b, pk⟩ := st
    by_cases hw : (P.Rules.winner b).isSome = true
    · cases pk <;> simp only [P.Stage.next] <;> rw [if_pos hw] <;> exact hinv
    · cases pk with
      | none =>
        simp only [P.Stage.next]
        rw [if_neg hw]
        by_cases hpick : msg ∈ P.Rules.pickable P.BW.white b
        · rw [if_pos hpick]
          intro p hp
          have hpm : msg = p := by simpa using hp
          subst hpm
          exact P.mem_pickable_occ_bw hpick
        · rw [if_neg hpick]
          exact hinv
      | some p0 =>
        simp only [P.Stage.next]
        rw [if_neg hw]
        by_cases hpl : msg ∈ P.Rules.playable P.BW.white b
        · rw [if_neg (by simpa using hpl :
            ¬(msg ∉ P.Rules.playable P.BW.white b))]
          by_cases hww :
              P.Rules.winner (P.Board.move b p0 msg) = some P.BW.white
          · rw [if_pos hww]
            intro p hp
            simp at hp
          · rw [if_neg hww]
            intro p hp
            cases hai : P.AI.move r P.BW.black (P.Board.move b p0 msg) with
            | some m => rw [hai] at hp; simp at hp
            | none => rw [hai] at hp; simp at hp
        · rw [if_pos hpl]
          by_cases hpick : msg ∈ P.Rules.pickable P.BW.white b
          · rw [if_pos hpick]
            intro p hp
            have hpm : msg = p := by simpa using hp
            subst hpm
            exact P.mem_pickable_occ_bw hpick
          · rw [if_neg hpick]
            exact hinv
  · intro r b s e out hout q hq
    unfold G.Engine.tick at hout
    by_cases hw : (G.Rules.winner b).isSome = true
    · rw [if_pos hw] at hout
      injection hout with h1
      rw [← h1] at hq
      simp at hq
    · rw [if_neg hw] at hout
      by_cases hmv : (s, e) ∈ G.Rules.moves b G.Player.x
      · rw [if_pos hmv] at hout
        by_cases hwn :
            G.Rules.winner (G.Board.move b [(s, e)]) = some G.Player.x
        · rw [if_pos hwn] at hout
          injection hout with h1
          rw [← h1] at hq
          simp at hq
        · rw [if_neg hwn] at hout
          cases hai : G.AI.move r (G.Board.move b [(s, e)])
              (G.AI.opponent G.Player.x) with
          | some m =>
            rw [hai] at hout
            injection hout with h1
            rw [← h1] at hq
            simp at hq
          | none =>
            rw [hai] at hout
            exact absurd hout (by simp)
      · rw [if_neg hmv] at hout
        injection hout with h1
        rw [← h1] at hq ⊢
        have hq2 : (([e, s].filter fun sp =>
            sp ∈ G.Rules.pickable b G.Player.x).head?) = some q := hq
        have hqmem := mem_of_head?_eq_some hq2
        have hqf := (List.mem_filter.1 hqmem).2
        have hqp : q ∈ G.Rules.pickable b G.Player.x := by simpa using hqf
        show b q = some G.Player.x
        exact G.mem_pickable_occ hqp

/-- Witness for C10: a tap on `p11` from the reset state keeps the
invariant, and an illegal `a5`-then-`a1` tick returns the `x`-occupied
pick `a1`. -/
theorem picked_is_own_piece_witness :
    P.PickedInv P.resetSt
    ∧ P.PickedInv (P.Stage.next 0 P.resetSt P.Sp.p11)
    ∧ G.Engine.tick 0 G.Board.create G.Player.x G.Space.a5 G.Space.a1 =
        some (G.Board.create, some G.Space.a1)
    ∧ G.Board.create G.Space.a1 = some G.Player.x :=
  ⟨picked_is_own_piece.1,
   picked_is_own_piece.2.1 0 P.resetSt P.Sp.p11
     (fun p hp => by simp [P.resetSt] at hp),
   by decide,
   picked_is_own_piece.2.2 0 G.Board.create G.Space.a5 G.Space.a1
     (G.Board.create, some G.Space.a1) (by decide) G.Space.a1 rfl⟩
